import Mathlib

/-!
Shallow embedding of the xhs publishing scripts (src/caipu.py,
src/caipunoai.py, src/xiaohongshumcp.py).

Strings that the truncation / cover-image layout code slices are modelled as
`List Char` (Python `str` indexing and slicing is by code point).  External
collaborators (the jieba tokenizer, PIL text measurement, the Qwen generation
service and the MCP publish service) are modelled as oracle functions passed
in explicitly; everything the scripts themselves compute is translated
directly from the source.
-/

/-- The whitespace characters stripped by Python `str.strip()` (the ASCII
whitespace set; the scripts only ever strip spaces and newlines). -/
def isWs (c : Char) : Bool :=
  c = ' ' || c = '\t' || c = '\n' || c = '\r' || c = '\x0b' || c = '\x0c'

/-- Python `title.strip()` on a list of characters: drop leading and trailing
whitespace. -/
def trimC (l : List Char) : List Char :=
  ((l.dropWhile isWs).reverse.dropWhile isWs).reverse

/-- `truncate_title` from caipu.py lines 53-60 (identical in caipunoai.py):
empty input maps to the empty string; otherwise the input is stripped and, if
longer than `MAX_TITLE_LENGTH = 20`, cut to the first 19 characters followed
by the one-character ellipsis. -/
def truncate_title (t : List Char) : List Char :=
  if t = [] then []
  else
    let s := trimC t
    if s.length ≤ 20 then s else s.take 19 ++ ['…']

/-!
## Cover-image layout engine (caipunoai.py, `create_dish_image`)

The title is stripped, segmented into word tokens by jieba (external; it is
modelled as an arbitrary token list whose concatenation is the stripped
title), and the tokens are packed greedily into lines of at most
`target_max = 4` characters (lines 255-282); a trailing line of at most two
characters is merged into the preceding line (lines 284-287).
-/

/-- The greedy packing loop of `create_dish_image` (caipunoai.py lines
261-282).  Arguments mirror the Python state: closed `lines`, the words of
`current_line`, `current_length`, and the remaining words.  The Python
constant `target_min = 2` is declared but never used by the loop. -/
def packStep : List (List Char) → List (List Char) → Nat → List (List Char) → List (List Char)
  | lines, cur, _, [] => if cur = [] then lines else lines ++ [cur.flatten]
  | lines, cur, curLen, w :: ws =>
    if curLen + w.length ≤ 4 then
      packStep lines (cur ++ [w]) (curLen + w.length) ws
    else if cur ≠ [] then
      packStep (lines ++ [cur.flatten]) [w] w.length ws
    else
      packStep (lines ++ [w.take 4]) [w.drop 4] (w.drop 4).length ws

/-- Candidate lines produced from the jieba word list (before the orphan
merge). -/
def packWords (ws : List (List Char)) : List (List Char) :=
  packStep [] [] 0 ws

/-- The orphan merge on the reversed line list: if the last line (head of the
reversal) has at most 2 characters and a previous line exists, append it to
that previous line. -/
def mergeShortLastRev : List (List Char) → List (List Char)
  | t :: p :: rest => if t.length ≤ 2 then (p ++ t) :: rest else t :: p :: rest
  | l => l

/-- The orphan merge of `create_dish_image` (caipunoai.py lines 284-287):
`if len(lines) >= 2 and len(lines[-1]) <= 2: lines[-2] += lines[-1]; lines.pop()`. -/
def mergeShortLast (lines : List (List Char)) : List (List Char) :=
  (mergeShortLastRev lines.reverse).reverse

/-- Two adjacent candidate lines are never both short (at most 2 characters
each): used to show the orphan merge always produces a long-enough last
line. -/
def goodPair (a b : List Char) : Prop := 3 ≤ a.length ∨ 3 ≤ b.length

/-!
## Font-size search (caipunoai.py, `create_dish_image` lines 289-318)

Pixel measurements come from PIL (`draw.textlength` and
`font.getbbox("国")[3]`); they are abstracted as oracle functions of the font
size.  The canvas is 1140x1472 with a 50px margin on every side, so the
available width is 1040 and the available height 1372; the line spacing is
20px. -/

/-- `max([draw.textlength(line, font=test_font) for line in lines])` — the
widest line at font size `s` (`measure s line` is the PIL pixel width). -/
def maxLineWidth (measure : Nat → List Char → Nat) (lines : List (List Char))
    (s : Nat) : Nat :=
  (lines.map (measure s)).foldr max 0

/-- `line_height * line_count + 20 * (line_count - 1)` at font size `s`,
where `lineH s` is the PIL line height `test_font.getbbox("国")[3]`. -/
def totalHeight (lineH : Nat → Nat) (count s : Nat) : Nat :=
  lineH s * count + 20 * (count - 1)

/-- The loop's continuation test: the code breaks when
`max_line_width > max_width or total_height > max_height`. -/
def sizeFits (measure : Nat → List Char → Nat) (lineH : Nat → Nat)
    (lines : List (List Char)) (s : Nat) : Bool :=
  decide (maxLineWidth measure lines s ≤ 1140 - 2 * 50)
    && decide (totalHeight lineH lines.length s ≤ 1472 - 2 * 50)

/-- The `while True` search: starting from `font_size = 10, best_size = 10`,
record the current size as best and step by 2 while the test passes; return
the recorded best at the first failing size.  The loop is given explicit fuel
(the real loop terminates because PIL widths grow with the font size). -/
def searchFrom (fits : Nat → Bool) : Nat → Nat → Nat → Nat
  | 0, _, best => best
  | fuel + 1, s, best => if fits s then searchFrom fits fuel (s + 2) s else best

/-- The value of `best_size` computed by `create_dish_image`. -/
def bestFontSize (fits : Nat → Bool) (fuel : Nat) : Nat :=
  searchFrom fits fuel 10 10

/-!
## Generation stages and retries (caipu.py)

Every stage wraps `qwen_request` in `for attempt in range(1, MAX_RETRIES+1)`
with `MAX_RETRIES = 3`.  A service is modelled as a function from the attempt
number to `Option` of the well-formed, non-empty value extracted from the
response: `none` covers a raised exception, a timeout, an empty value and a
malformed response alike, because the loop treats all of them as a failed
attempt and moves on. -/

/-- The bounded retry loop shared by `call_qwen_title`, `call_qwen_text` and
`call_qwen_image`: try attempts `attempt, attempt+1, ...` while fuel lasts,
returning the first successful attempt's number and value. -/
def retryStage {α : Type} (svc : Nat → Option α) : Nat → Nat → Option (Nat × α)
  | 0, _ => none
  | fuel + 1, attempt =>
    match svc attempt with
    | some v => some (attempt, v)
    | none => retryStage svc fuel (attempt + 1)

/-- `call_qwen_title` (caipu.py lines 137-146): up to 3 attempts; a
successful attempt's title is returned truncated. -/
def call_qwen_title (svc : Nat → Option (List Char)) : Option (List Char) :=
  (retryStage svc 3 1).map (fun p => truncate_title p.2)

/-- `call_qwen_text` (caipu.py lines 167-176): up to 3 attempts; the first
non-empty text is returned as is. -/
def call_qwen_text (svc : Nat → Option (List Char)) : Option (List Char) :=
  (retryStage svc 3 1).map Prod.snd

/-- `call_qwen_image` (caipu.py lines 211-232): up to 3 attempts; the first
extracted image reference is returned. -/
def call_qwen_image (svc : Nat → Option (List Char)) : Option (List Char) :=
  (retryStage svc 3 1).map Prod.snd

/-- The tag cleaning of `call_qwen_tags` (caipu.py line 195):
`[t.strip() for t in tags if isinstance(t, str) and t.strip()]`. -/
def tagsClean (l : List (List Char)) : List (List Char) :=
  l.filterMap (fun t => let s := trimC t; if s = [] then none else some s)

/-- The deterministic fallback tag set of `call_qwen_tags` (caipu.py line
203): `[f"{dish_name[:4]}家常", "美食推荐", "下饭菜"]`. -/
def defaultTags (dish : List Char) : List (List Char) :=
  [dish.take 4 ++ "家常".toList, "美食推荐".toList, "下饭菜".toList]

/-- `call_qwen_tags` (caipu.py lines 179-203).  The service oracle returns
the JSON-parsed array of strings of an attempt, or `none` for an exception /
non-array / unparsable response.  An attempt whose cleaned list is empty
counts as failed; success returns the first 3 cleaned tags, exhaustion
returns the deterministic default set. -/
def call_qwen_tags (svc : Nat → Option (List (List Char))) (dish : List Char) :
    Nat → Nat → List (List Char)
  | 0, _ => defaultTags dish
  | fuel + 1, attempt =>
    match svc attempt with
    | some l =>
      let c := tagsClean l
      if c = [] then call_qwen_tags svc dish fuel (attempt + 1) else c.take 3
    | none => call_qwen_tags svc dish fuel (attempt + 1)

/-- The marker step in `main` (caipu.py line 316):
`[f"#{t}" if not t.startswith("#") else t for t in tags]`. -/
def addHash (t : List Char) : List Char :=
  if t.head? = some '#' then t else '#' :: t

/-- The tag list as submitted to the publish service for one record. -/
def submittedTags (svc : Nat → Option (List (List Char))) (dish : List Char) :
    List (List Char) :=
  (call_qwen_tags svc dish 3 1).map addHash

/-- The per-record control flow of `main` (caipu.py lines 300-323) up to the
publish call: a failed body or image stage skips the record (no publish); a
failed title stage falls back to the truncated original title. -/
inductive PipeOutcome where
  | skippedBody
  | skippedImage
  | ready (title content : List Char) (tags : List (List Char)) (img : List Char)
deriving DecidableEq

/-- One record of `main`'s loop body (caipu.py lines 300-323): title with
fallback, body (skip on failure), tags with marker, image (skip on
failure). -/
def pipelineRecord (origTitle : List Char)
    (titleSvc bodySvc imgSvc : Nat → Option (List Char))
    (tagsSvc : Nat → Option (List (List Char))) : PipeOutcome :=
  let finalTitle := (call_qwen_title titleSvc).getD (truncate_title origTitle)
  match call_qwen_text bodySvc with
  | none => PipeOutcome.skippedBody
  | some content =>
    let tags := (call_qwen_tags tagsSvc finalTitle 3 1).map addHash
    match call_qwen_image imgSvc with
    | none => PipeOutcome.skippedImage
    | some img => PipeOutcome.ready finalTitle content tags img

/-!
## Publish call and content ledger (caipu.py lines 261-272, 277-342;
xiaohongshumcp.py lines 356-361 uses the identical update pattern)

A ledger row models one CSV record of `dish_data.csv`; `markPublished`
models the pair of `df.loc[df["菜品标题"] == original_title, ...]`
assignments, which touch every row whose identifier equals the key. -/

/-- One ledger row (CSV record).  `published` holds the status string
(`"未发布"` unpublished, `"已发布"` published); `pubTime` the publish
timestamp (empty when never published). -/
structure Row where
  title : String
  features : String
  ingredients : String
  process : String
  published : String
  pubTime : String
deriving DecidableEq

/-- The effect of the two `df.loc[...] = ...` assignments on a single row. -/
def updRow (key ts : String) (r : Row) : Row :=
  if r.title = key then { r with published := "已发布", pubTime := ts } else r

/-- `df.loc[df["菜品标题"] == key, "已发布"] = "已发布"` followed by
`df.loc[df["菜品标题"] == key, "发布时间"] = now` (caipu.py lines 330-331):
every matching row is updated, every other row is untouched. -/
def markPublished (df : List Row) (key ts : String) : List Row :=
  df.map (updRow key ts)

/-- The MCP publish response as `publish_to_mcp` sees it: an exception
(network error or timeout), or a JSON body whose optional `success` field is
modelled as `Option Bool` (`none` when the field is absent). -/
inductive PublishResp where
  | exn
  | ok (success : Option Bool)

/-- `publish_to_mcp` (caipu.py lines 261-272): `True` exactly when the
request raised no exception and `result.get("success")` is truthy; a missing
or false `success` field and every exception path return `False`. -/
def publish_to_mcp : PublishResp → Bool
  | PublishResp.exn => false
  | PublishResp.ok none => false
  | PublishResp.ok (some b) => b

/-- The publish/persist step of `main` (caipu.py lines 328-335): on a
successful publish the ledger rows matching the record's identifier are
updated and the whole store is persisted (the Bool component); otherwise
nothing happens. -/
def publishStep (df : List Row) (key ts : String) (resp : PublishResp) :
    List Row × Bool :=
  if publish_to_mcp resp then (markPublished df key ts, true) else (df, false)

/-- `datetime.now().strftime("%Y-%m-%d %H:%M:%S")`: zero-padding of a
two-digit field. -/
def pad2 (n : Nat) : String :=
  if n < 10 then "0" ++ toString n else toString n

/-- The timestamp string written to the ledger. -/
def formatTs (y mo d h mi s : Nat) : String :=
  toString y ++ "-" ++ pad2 mo ++ "-" ++ pad2 d ++ " "
    ++ pad2 h ++ ":" ++ pad2 mi ++ ":" ++ pad2 s

/-!
## Pacing controller (caipu.py lines 288-294)

`sample(frac=1)` produces a random permutation of the unpublished records;
it is modelled as an arbitrary list `perm` that is a permutation of the
records.  The quota is clamped with
`if daily_quota > len(unpublished_df): daily_quota = len(unpublished_df)`,
and the `for idx in range(daily_quota)` loop processes exactly the first
`daily_quota` rows of the permutation. -/

/-- The quota clamp of `main`. -/
def clampQuota (q n : Nat) : Nat := if n < q then n else q

/-- The batch actually processed: the first `clampQuota q |perm|` rows of the
permuted record list. -/
def selectBatch {α : Type} (perm : List α) (q : Nat) : List α :=
  perm.take (clampQuota q perm.length)

theorem dropWhile_idem (p : Char → Bool) (l : List Char) :
    (l.dropWhile p).dropWhile p = l.dropWhile p := by
  induction l with
  | nil => rfl
  | cons a l ih =>
    by_cases h : p a
    · simp [List.dropWhile_cons, h, ih]
    · simp [List.dropWhile_cons, h]

theorem dropWhile_head_cases (p : Char → Bool) (l : List Char) :
    l.dropWhile p = [] ∨ ∃ a t, l.dropWhile p = a :: t ∧ p a = false := by
  induction l with
  | nil => exact Or.inl rfl
  | cons a l ih =>
    by_cases h : p a
    · simpa [List.dropWhile_cons, h] using ih
    · exact Or.inr ⟨a, l, by simp [List.dropWhile_cons, h],
        by simpa using h⟩

theorem trimC_eq_self (l : List Char) (h1 : l.dropWhile isWs = l)
    (h2 : l.reverse.dropWhile isWs = l.reverse) : trimC l = l := by
  unfold trimC
  rw [h1, h2, List.reverse_reverse]

theorem trimC_head_not_ws (l : List Char) {a : Char} {t : List Char}
    (h : trimC l = a :: t) : isWs a = false := by
  have hsplit :
      ((l.dropWhile isWs).reverse.takeWhile isWs)
        ++ (l.dropWhile isWs).reverse.dropWhile isWs
        = (l.dropWhile isWs).reverse :=
    List.takeWhile_append_dropWhile _ _
  have hu : l.dropWhile isWs
      = ((l.dropWhile isWs).reverse.dropWhile isWs).reverse
        ++ ((l.dropWhile isWs).reverse.takeWhile isWs).reverse := by
    conv_lhs => rw [← List.reverse_reverse (l.dropWhile isWs), ← hsplit]
    rw [List.reverse_append]
  have htrim : trimC l = ((l.dropWhile isWs).reverse.dropWhile isWs).reverse := rfl
  rw [htrim] at h
  rw [h] at hu
  rcases dropWhile_head_cases isWs l with hnil | ⟨b, t2, hb, hbws⟩
  · rw [hnil] at hu
    exact absurd hu.symm (by simp)
  · have hba : b :: t2
        = a :: t ++ ((l.dropWhile isWs).reverse.takeWhile isWs).reverse :=
      hb.symm.trans hu
    simp only [List.cons_append, List.cons.injEq] at hba
    rw [← hba.1]
    exact hbws

theorem trimC_last_not_ws (l : List Char) {a : Char} {t : List Char}
    (h : (trimC l).reverse = a :: t) : isWs a = false := by
  have hrev : (trimC l).reverse = (l.dropWhile isWs).reverse.dropWhile isWs := by
    unfold trimC
    rw [List.reverse_reverse]
  rw [hrev] at h
  rcases dropWhile_head_cases isWs (l.dropWhile isWs).reverse with hnil | ⟨b, t2, hb, hbws⟩
  · rw [hnil] at h
    exact absurd h (by simp)
  · have hba : b :: t2 = a :: t := by rw [← hb, h]
    simp only [List.cons.injEq] at hba
    rw [← hba.1]
    exact hbws

theorem trimC_trimC (l : List Char) : trimC (trimC l) = trimC l := by
  apply trimC_eq_self
  · rcases hr : trimC l with _ | ⟨a, t⟩
    · rfl
    · have ha : isWs a = false := trimC_head_not_ws l hr
      simp [List.dropWhile_cons, ha]
  · rcases hr : (trimC l).reverse with _ | ⟨a, t⟩
    · rfl
    · have ha : isWs a = false := trimC_last_not_ws l hr
      simp [List.dropWhile_cons, ha]

theorem trimC_fixed_of_ends (l : List Char) {a b : Char} {m : List Char}
    (hl : l = a :: m ++ [b]) (ha : isWs a = false) (hb : isWs b = false) :
    trimC l = l := by
  apply trimC_eq_self
  · rw [hl]
    simp [List.dropWhile_cons, ha]
  · rw [hl]
    have : (a :: m ++ [b]).reverse = b :: (m.reverse ++ [a]) := by
      simp
    rw [this]
    simp [List.dropWhile_cons, hb]

theorem truncate_title_fixed (u : List Char) (hfix : trimC u = u)
    (hlen : u.length ≤ 20) : truncate_title u = u := by
  by_cases h : u = []
  · simp [truncate_title, h]
  · simp [truncate_title, h, hfix, hlen]

/-- Claim C8: for input whose stripped form is strictly longer than the
20-character cap, `truncate_title` returns exactly 20 characters ending in the
ellipsis; for input at or under the cap it returns the stripped input
unchanged; and the operation is idempotent. -/
theorem truncate_title_spec (t : List Char) :
    (20 < (trimC t).length →
      (truncate_title t).length = 20 ∧ (truncate_title t).getLast? = some '…')
  ∧ ((trimC t).length ≤ 20 → truncate_title t = trimC t)
  ∧ truncate_title (truncate_title t) = truncate_title t := by
  by_cases ht : t = []
  · subst ht
    exact ⟨fun h => absurd h (by decide), fun _ => by decide, by decide⟩
  · by_cases hlen : (trimC t).length ≤ 20
    · have heq : truncate_title t = trimC t := by
        simp [truncate_title, ht, hlen]
      refine ⟨fun h => absurd h (by omega), fun _ => heq, ?_⟩
      rw [heq]
      exact truncate_title_fixed _ (trimC_trimC t) hlen
    · -- stripped length > 20
      push_neg at hlen
      have hout : truncate_title t = (trimC t).take 19 ++ ['…'] := by
        simp only [truncate_title, if_neg ht]
        rw [if_neg (by omega)]
      obtain ⟨a, rest, hcons⟩ : ∃ a rest, trimC t = a :: rest := by
        rcases hs : trimC t with _ | ⟨a, rest⟩
        · rw [hs] at hlen; simp at hlen
        · exact ⟨a, rest, rfl⟩
      have ha : isWs a = false := trimC_head_not_ws t hcons
      have hout2 : truncate_title t = a :: (rest.take 18 ++ ['…']) := by
        rw [hout, hcons]
        simp [List.take_succ_cons]
      have hlen20 : (truncate_title t).length = 20 := by
        rw [hout, List.length_append, List.length_take]
        simp only [List.length_singleton]
        omega
      refine ⟨fun _ => ⟨hlen20, ?_⟩, fun h => absurd h (by omega), ?_⟩
      · rw [hout]
        exact List.getLast?_concat _
      · have hfix : trimC (truncate_title t) = truncate_title t :=
          trimC_fixed_of_ends (truncate_title t) (a := a) (b := '…')
            (m := rest.take 18) (by rw [hout2]; rfl) ha (by decide)
        exact truncate_title_fixed _ hfix (le_of_eq hlen20)

/-- Claim C8 witness: a 25-character input is cut to 20 characters ending in
the ellipsis; an 8-character input is returned stripped and unchanged. -/
theorem truncate_title_spec_witness :
    (truncate_title ("abcdefghijklmnopqrstuvwxy".toList)).length = 20
  ∧ (truncate_title ("abcdefghijklmnopqrstuvwxy".toList)).getLast? = some '…'
  ∧ truncate_title (" 红烧排骨商用配方 ".toList) = trimC (" 红烧排骨商用配方 ".toList) :=
  ⟨((truncate_title_spec _).1 (by decide)).1,
   ((truncate_title_spec _).1 (by decide)).2,
   (truncate_title_spec _).2.1 (by decide)⟩

theorem packStep_join (ws : List (List Char)) :
    ∀ lines cur curLen,
      (packStep lines cur curLen ws).flatten = lines.flatten ++ (cur.flatten ++ ws.flatten) := by
  induction ws with
  | nil =>
    intro lines cur curLen
    by_cases h : cur = []
    · simp [packStep, h]
    · simp [packStep, h]
  | cons w ws ih =>
    intro lines cur curLen
    by_cases h1 : curLen + w.length ≤ 4
    · rw [packStep, if_pos h1, ih]
      simp [List.flatten_append]
    · by_cases h2 : cur = []
      · rw [packStep, if_neg h1, if_neg (by simp [h2]), ih]
        simp only [List.flatten_append, List.flatten_cons, List.flatten_nil, h2,
          List.append_nil, List.nil_append, List.append_assoc]
        rw [← List.append_assoc (List.take 4 w), List.take_append_drop]
      · rw [packStep, if_neg h1, if_pos h2, ih]
        simp [List.flatten_append]

theorem packWords_join (ws : List (List Char)) :
    (packWords ws).flatten = ws.flatten := by
  simp [packWords, packStep_join]

theorem mergeShortLast_join (L : List (List Char)) :
    (mergeShortLast L).flatten = L.flatten := by
  have hL : L = L.reverse.reverse := (List.reverse_reverse L).symm
  rcases hrev : L.reverse with _ | ⟨t, _ | ⟨p, rest⟩⟩
  · obtain rfl : L = [] := by simpa using congrArg List.reverse hrev
    rfl
  · obtain rfl : L = [t] := by simpa using congrArg List.reverse hrev
    simp [mergeShortLast, mergeShortLastRev]
  · rw [mergeShortLast, hrev]
    rw [hL, hrev]
    by_cases hlen : t.length ≤ 2
    · rw [mergeShortLastRev, if_pos hlen]
      simp [List.flatten_append]
    · rw [mergeShortLastRev, if_neg hlen]

theorem filter_dropWhile_isWs (l : List Char) :
    (l.dropWhile isWs).filter (fun c => !isWs c) = l.filter (fun c => !isWs c) := by
  induction l with
  | nil => rfl
  | cons a l ih =>
    by_cases h : isWs a
    · simp [List.dropWhile_cons, List.filter_cons, h, ih]
    · simp [List.dropWhile_cons, List.filter_cons, h]

theorem filter_trimC (l : List Char) :
    (trimC l).filter (fun c => !isWs c) = l.filter (fun c => !isWs c) := by
  unfold trimC
  rw [List.filter_reverse, filter_dropWhile_isWs, List.filter_reverse,
    filter_dropWhile_isWs, List.reverse_reverse]

/-- Claim C4: when the jieba tokens concatenate back to the stripped title
(jieba segmentation is lossless), the lines the layout engine emits —
greedy packing, hard-splitting of over-long tokens, and the orphan merge —
preserve the multiset and order of non-whitespace characters of the title. -/
theorem layout_preserves_chars (title : List Char) (words : List (List Char))
    (hjieba : words.flatten = trimC title) (hne : trimC title ≠ []) :
    ((mergeShortLast (packWords words)).flatten).filter (fun c => !isWs c)
      = title.filter (fun c => !isWs c) := by
  rw [mergeShortLast_join, packWords_join, hjieba, filter_trimC]

/-- Claim C4 witness: a concrete 8-character title segmented into four
2-character tokens. -/
theorem layout_preserves_chars_witness :
    ((mergeShortLast (packWords
        ["红烧".toList, "排骨".toList, "商用".toList, "配方".toList])).flatten).filter
        (fun c => !isWs c)
      = ("红烧排骨商用配方".toList).filter (fun c => !isWs c) :=
  layout_preserves_chars _ _ (by decide) (by decide)

theorem chain_concat_goodPair (lines : List (List Char)) (x : List Char)
    (h : List.Chain' goodPair lines)
    (hp : ∀ p, lines.getLast? = some p → p.length ≤ 2 → 3 ≤ x.length) :
    List.Chain' goodPair (lines ++ [x]) := by
  rw [List.chain'_append]
  refine ⟨h, List.chain'_singleton x, ?_⟩
  intro a ha b hb
  simp only [List.head?_cons, Option.mem_def, Option.some.injEq] at hb
  subst hb
  by_cases h3 : 3 ≤ a.length
  · exact Or.inl h3
  · exact Or.inr (hp a (Option.mem_def.mp ha) (by omega))

theorem packStep_chain (ws : List (List Char)) :
    ∀ lines cur curLen,
      curLen = cur.flatten.length →
      List.Chain' goodPair lines →
      (∀ p, lines.getLast? = some p → p.length ≤ 2 → 3 ≤ curLen ∧ cur ≠ []) →
      List.Chain' goodPair (packStep lines cur curLen ws) := by
  induction ws with
  | nil =>
    intro lines cur curLen hcl hch h3
    by_cases hc : cur = []
    · simpa [packStep, hc] using hch
    · rw [packStep, if_neg hc]
      apply chain_concat_goodPair _ _ hch
      intro p hp hple
      have := (h3 p hp hple).1
      omega
  | cons w ws ih =>
    intro lines cur curLen hcl hch h3
    by_cases h1 : curLen + w.length ≤ 4
    · rw [packStep, if_pos h1]
      apply ih
      · simp [hcl]
      · exact hch
      · intro p hp hple
        obtain ⟨ha, _⟩ := h3 p hp hple
        exact ⟨by omega, by simp⟩
    · by_cases h2 : cur = []
      · rw [packStep, if_neg h1, if_neg (by simp [h2])]
        have hw : 5 ≤ w.length := by
          have hz : curLen = 0 := by simp [hcl, h2]
          omega
        apply ih
        · simp
        · apply chain_concat_goodPair _ _ hch
          intro p hp hple
          simp only [List.length_take]
          omega
        · intro p hp hple
          rw [List.getLast?_concat] at hp
          obtain rfl : p = w.take 4 := by
            simpa using hp.symm
          exact absurd hple (by simp only [List.length_take]; omega)
      · rw [packStep, if_neg h1, if_pos h2]
        apply ih
        · simp
        · apply chain_concat_goodPair _ _ hch
          intro p hp hple
          have := (h3 p hp hple).1
          omega
        · intro p hp hple
          rw [List.getLast?_concat] at hp
          obtain rfl : p = cur.flatten := by
            simpa using hp.symm
          refine ⟨by omega, by simp⟩

theorem packWords_chain (ws : List (List Char)) :
    List.Chain' goodPair (packWords ws) := by
  apply packStep_chain ws [] [] 0 rfl List.chain'_nil
  intro p hp
  simp at hp

/-- Claim C5: if the packing produces at least two candidate lines and the
final one has at most two characters, the orphan merge appends it to the
preceding line; consequently the emitted line list never ends with a line of
at most two characters while another line exists. -/
theorem orphan_merge_spec (words : List (List Char)) :
    (∀ rest p t, packWords words = rest ++ [p, t] → t.length ≤ 2 →
        mergeShortLast (packWords words) = rest ++ [p ++ t])
  ∧ (2 ≤ (mergeShortLast (packWords words)).length →
      ∀ t, (mergeShortLast (packWords words)).getLast? = some t → 2 < t.length) := by
  constructor
  · intro rest p t heq hle
    rw [mergeShortLast, heq]
    have hr : (rest ++ [p, t]).reverse = t :: p :: rest.reverse := by simp
    rw [hr, mergeShortLastRev, if_pos hle]
    simp
  · intro hlen t hlast
    have hchain := packWords_chain words
    rcases hrev : (packWords words).reverse with _ | ⟨t0, _ | ⟨p0, rest⟩⟩
    · rw [mergeShortLast, hrev] at hlen
      simp [mergeShortLastRev] at hlen
    · rw [mergeShortLast, hrev] at hlen
      simp [mergeShortLastRev] at hlen
    · have hPW : packWords words = rest.reverse ++ [p0, t0] := by
        have := congrArg List.reverse hrev
        simpa using this
      have hgp : goodPair p0 t0 := by
        rw [hPW] at hchain
        exact List.chain'_pair.mp (List.chain'_append.mp hchain).2.1
      by_cases ht0 : t0.length ≤ 2
      · have hmerge : mergeShortLast (packWords words)
            = rest.reverse ++ [p0 ++ t0] := by
          rw [mergeShortLast, hrev, mergeShortLastRev, if_pos ht0]
          simp
        rw [hmerge, List.getLast?_concat] at hlast
        obtain rfl : t = p0 ++ t0 := by simpa using hlast.symm
        have hp0 : 3 ≤ p0.length := by
          rcases hgp with h | h
          · exact h
          · omega
        simp only [List.length_append]
        omega
      · have hmerge : mergeShortLast (packWords words) = packWords words := by
          rw [mergeShortLast, hrev, mergeShortLastRev, if_neg ht0, ← hrev,
            List.reverse_reverse]
        rw [hmerge, hPW] at hlast
        have hgl : (rest.reverse ++ [p0, t0]).getLast? = some t0 := by
          rw [show rest.reverse ++ [p0, t0] = (rest.reverse ++ [p0]) ++ [t0] by simp]
          exact List.getLast?_concat _
        rw [hgl] at hlast
        obtain rfl : t = t0 := by simpa using hlast.symm
        omega

/-- Claim C5 witness: `[红烧, 排骨, 饭]` packs to two lines with a
1-character tail, which gets merged; a three-line packing with a short tail
ends, after the merge, in a 5-character line. -/
theorem orphan_merge_spec_witness :
    mergeShortLast (packWords ["红烧".toList, "排骨".toList, "饭".toList])
      = [] ++ ["红烧排骨".toList ++ "饭".toList]
  ∧ 2 < ("戊己庚辛壬".toList).length := by
  constructor
  · exact (orphan_merge_spec _).1 [] ("红烧排骨".toList) ("饭".toList)
      (by decide) (by decide)
  · exact (orphan_merge_spec ["甲乙丙丁".toList, "戊己庚辛".toList, "壬".toList]).2
      (by decide) ("戊己庚辛壬".toList) (by decide)

theorem searchFrom_spec (f : Nat → Bool) :
    ∀ fuel s best, f s = true → (∃ k, k < fuel ∧ f (s + 2 * k) = false) →
      ∃ m, searchFrom f fuel s best = s + 2 * m
        ∧ (∀ j, j ≤ m → f (s + 2 * j) = true)
        ∧ f (s + 2 * (m + 1)) = false := by
  intro fuel
  induction fuel with
  | zero =>
    intro s best _ hex
    obtain ⟨k, hk, _⟩ := hex
    omega
  | succ fuel ih =>
    intro s best hs hex
    rw [searchFrom, if_pos hs]
    obtain ⟨k, hk, hkf⟩ := hex
    have hk1 : 1 ≤ k := by
      rcases Nat.eq_zero_or_pos k with h | h
      · subst h
        simp at hkf
        rw [hs] at hkf
        cases hkf
      · exact h
    by_cases hz : f (s + 2) = true
    · have hex2 : ∃ k2, k2 < fuel ∧ f (s + 2 + 2 * k2) = false := by
        refine ⟨k - 1, by omega, ?_⟩
        have harith : s + 2 + 2 * (k - 1) = s + 2 * k := by omega
        rw [harith]
        exact hkf
      obtain ⟨m, hres, hall, hviol⟩ := ih (s + 2) s hz hex2
      refine ⟨m + 1, ?_, ?_, ?_⟩
      · rw [hres]; omega
      · intro j hj
        rcases Nat.eq_zero_or_pos j with h | h
        · subst h
          simpa using hs
        · have harith : s + 2 * j = s + 2 + 2 * (j - 1) := by omega
          rw [harith]
          exact hall (j - 1) (by omega)
      · have harith : s + 2 * (m + 1 + 1) = s + 2 + 2 * (m + 1) := by omega
        rw [harith]
        exact hviol
    · have hzf : f (s + 2) = false := by
        cases hf : f (s + 2)
        · rfl
        · exact absurd hf hz
      have hstop : searchFrom f fuel (s + 2) s = s := by
        cases fuel with
        | zero => rfl
        | succ fuel2 => rw [searchFrom, if_neg (by rw [hzf]; simp)]
      refine ⟨0, by rw [hstop]; omega, ?_, ?_⟩
      · intro j hj
        obtain rfl : j = 0 := by omega
        simpa using hs
      · simpa using hzf

/-- Claim C1: for a non-empty line list, provided the starting size 10
satisfies both bounds (true of real PIL measurements on the at-most-20
character titles) and some probed size violates a bound within the given
fuel (the real loop always reaches one because widths grow with size), the
returned `best_size` is the largest tested size at which both the maximum
line width fits the available canvas width and the total block height fits
the available canvas height: every probed size up to the result satisfies
both bounds and the next probed size (the one the loop stopped at) violates
one of them. -/
theorem font_search_spec (measure : Nat → List Char → Nat) (lineH : Nat → Nat)
    (lines : List (List Char)) (fuel : Nat)
    (hne : lines ≠ [])
    (h10 : sizeFits measure lineH lines 10 = true)
    (hterm : ∃ k, k < fuel ∧ sizeFits measure lineH lines (10 + 2 * k) = false) :
    ∃ m, bestFontSize (sizeFits measure lineH lines) fuel = 10 + 2 * m
      ∧ (∀ j, j ≤ m → sizeFits measure lineH lines (10 + 2 * j) = true)
      ∧ sizeFits measure lineH lines (10 + 2 * (m + 1)) = false :=
  searchFrom_spec _ fuel 10 10 h10 hterm

/-- Claim C1 witness: with width oracle `s * length` and height oracle `s` on
a single 2-character line, the search run with fuel 300 stops at size 522
(width 1044 > 1040) and returns 520. -/
theorem font_search_spec_witness :
    ∃ m, bestFontSize
        (sizeFits (fun s l => s * l.length) (fun s => s) [['国', '宴']]) 300
        = 10 + 2 * m
      ∧ (∀ j, j ≤ m →
          sizeFits (fun s l => s * l.length) (fun s => s) [['国', '宴']]
            (10 + 2 * j) = true)
      ∧ sizeFits (fun s l => s * l.length) (fun s => s) [['国', '宴']]
          (10 + 2 * (m + 1)) = false :=
  font_search_spec _ _ _ 300 (by decide) (by decide)
    ⟨256, by omega, by decide⟩

theorem call_qwen_tags_fail_step (svc : Nat → Option (List (List Char)))
    (dish : List Char) (fuel i : Nat)
    (h : ∀ l, svc i = some l → tagsClean l = []) :
    call_qwen_tags svc dish (fuel + 1) i = call_qwen_tags svc dish fuel (i + 1) := by
  rw [call_qwen_tags]
  rcases hv : svc i with _ | l
  · simp only [hv]
  · simp only [hv]
    rw [if_pos (h l hv)]

theorem call_qwen_tags_succ_step (svc : Nat → Option (List (List Char)))
    (dish : List Char) (fuel i : Nat) (l : List (List Char))
    (h : svc i = some l) (hc : tagsClean l ≠ []) :
    call_qwen_tags svc dish (fuel + 1) i = (tagsClean l).take 3 := by
  rw [call_qwen_tags]
  simp only [h]
  rw [if_neg hc]

/-- Claim C3: each stage — the `retryStage` loop shared by title, body and
image, and the `call_qwen_tags` recursion — consults at most the first 3
attempts; a service failing exactly k < 3 times and then returning a
well-formed non-empty value succeeds at attempt k+1 with that value (for
tags, a failed attempt is an exception/malformed response or one whose
cleaned list is empty, and the yielded value is the first 3 cleaned tags);
on full exhaustion the title stage falls back to the truncated original
identifier (`ai_title or truncate_title(original_title)`), the tags stage to
the deterministic default set, and a failed body or image stage skips the
record before any publish. -/
theorem retry_fallback_spec :
    (∀ (α : Type) (svc : Nat → Option α) (k : Nat) (v : α),
        k < 3 → (∀ i, 1 ≤ i → i ≤ k → svc i = none) → svc (k + 1) = some v →
        retryStage svc 3 1 = some (k + 1, v))
  ∧ (∀ (α : Type) (svc svc2 : Nat → Option α),
        (∀ i, 1 ≤ i → i ≤ 3 → svc i = svc2 i) →
        retryStage svc 3 1 = retryStage svc2 3 1)
  ∧ (∀ (svc : Nat → Option (List (List Char))) (dish : List Char) (k : Nat)
        (l : List (List Char)),
        k < 3 →
        (∀ i, 1 ≤ i → i ≤ k → ∀ l2, svc i = some l2 → tagsClean l2 = []) →
        svc (k + 1) = some l → tagsClean l ≠ [] →
        call_qwen_tags svc dish 3 1 = (tagsClean l).take 3)
  ∧ (∀ (svc svc2 : Nat → Option (List (List Char))) (dish : List Char),
        (∀ i, 1 ≤ i → i ≤ 3 → svc i = svc2 i) →
        call_qwen_tags svc dish 3 1 = call_qwen_tags svc2 dish 3 1)
  ∧ (∀ (svc : Nat → Option (List Char)) (orig : List Char),
        (∀ i, svc i = none) →
        (call_qwen_title svc).getD (truncate_title orig) = truncate_title orig)
  ∧ (∀ (svc : Nat → Option (List (List Char))) (dish : List Char),
        (∀ i, svc i = none) → call_qwen_tags svc dish 3 1 = defaultTags dish)
  ∧ (∀ (orig : List Char) (titleSvc imgSvc bodySvc : Nat → Option (List Char))
        (tagsSvc : Nat → Option (List (List Char))),
        (∀ i, bodySvc i = none) →
        pipelineRecord orig titleSvc bodySvc imgSvc tagsSvc
          = PipeOutcome.skippedBody)
  ∧ (∀ (orig : List Char) (titleSvc bodySvc imgSvc : Nat → Option (List Char))
        (tagsSvc : Nat → Option (List (List Char))) (c : List Char),
        call_qwen_text bodySvc = some c → (∀ i, imgSvc i = none) →
        pipelineRecord orig titleSvc bodySvc imgSvc tagsSvc
          = PipeOutcome.skippedImage) := by
  refine ⟨?_, ?_, ?_, ?_, ?_, ?_, ?_, ?_⟩
  · intro α svc k v hk hfail hsucc
    interval_cases k
    · simp [retryStage, hsucc]
    · simp [retryStage, hfail 1 (by omega) (by omega), hsucc]
    · simp [retryStage, hfail 1 (by omega) (by omega),
        hfail 2 (by omega) (by omega), hsucc]
  · intro α svc svc2 h
    have e1 := h 1 (by omega) (by omega)
    have e2 := h 2 (by omega) (by omega)
    have e3 := h 3 (by omega) (by omega)
    simp only [retryStage]
    rw [e1, e2, e3]
  · intro svc dish k l hk hfail hsucc hclean
    interval_cases k
    · exact call_qwen_tags_succ_step svc dish 2 1 l hsucc hclean
    · have h1 : call_qwen_tags svc dish 3 1 = call_qwen_tags svc dish 2 2 :=
        call_qwen_tags_fail_step svc dish 2 1
          (fun l2 => hfail 1 (by omega) (by omega) l2)
      have h2 : call_qwen_tags svc dish 2 2 = (tagsClean l).take 3 :=
        call_qwen_tags_succ_step svc dish 1 2 l hsucc hclean
      exact h1.trans h2
    · have h1 : call_qwen_tags svc dish 3 1 = call_qwen_tags svc dish 2 2 :=
        call_qwen_tags_fail_step svc dish 2 1
          (fun l2 => hfail 1 (by omega) (by omega) l2)
      have h2 : call_qwen_tags svc dish 2 2 = call_qwen_tags svc dish 1 3 :=
        call_qwen_tags_fail_step svc dish 1 2
          (fun l2 => hfail 2 (by omega) (by omega) l2)
      have h3 : call_qwen_tags svc dish 1 3 = (tagsClean l).take 3 :=
        call_qwen_tags_succ_step svc dish 0 3 l hsucc hclean
      exact (h1.trans h2).trans h3
  · intro svc svc2 dish h
    have e1 := h 1 (by omega) (by omega)
    have e2 := h 2 (by omega) (by omega)
    have e3 := h 3 (by omega) (by omega)
    simp only [call_qwen_tags]
    rw [e1, e2, e3]
  · intro svc orig hfail
    simp [call_qwen_title, retryStage, hfail]
  · intro svc dish hfail
    simp [call_qwen_tags, hfail]
  · intro orig titleSvc imgSvc bodySvc tagsSvc hfail
    simp [pipelineRecord, call_qwen_text, retryStage, hfail]
  · intro orig titleSvc bodySvc imgSvc tagsSvc c hbody hfail
    simp [pipelineRecord, hbody, call_qwen_image, retryStage, hfail]

/-- Claim C3 witness: one failure then a success yields the value at attempt
2, for the shared retry loop and for the tags stage; an always-failing tags
service yields the default set; an always-failing body service skips the
record. -/
theorem retry_fallback_spec_witness :
    retryStage (fun i => match i with | 2 => some "好菜".toList | _ => none) 3 1
      = some (2, "好菜".toList)
  ∧ call_qwen_tags
        (fun i => match i with
          | 2 => some [['川', '菜'], ['下', '饭']]
          | _ => none)
        "菜".toList 3 1
      = (tagsClean [['川', '菜'], ['下', '饭']]).take 3
  ∧ call_qwen_tags (fun _ => none) "菜".toList 3 1 = defaultTags "菜".toList
  ∧ pipelineRecord "菜".toList (fun _ => none) (fun _ => none) (fun _ => none)
      (fun _ => none) = PipeOutcome.skippedBody := by
  refine ⟨?_, ?_, ?_, ?_⟩
  · exact retry_fallback_spec.1 _ _ 1 _ (by omega)
      (fun i h1 h2 => by
        obtain rfl : i = 1 := by omega
        rfl)
      rfl
  · exact retry_fallback_spec.2.2.1 _ "菜".toList 1 _ (by omega)
      (fun i h1 h2 l2 hl => by
        obtain rfl : i = 1 := by omega
        exact Option.noConfusion hl)
      rfl (by decide)
  · exact retry_fallback_spec.2.2.2.2.2.1 _ _ (fun i => rfl)
  · exact retry_fallback_spec.2.2.2.2.2.2.1 _ _ _ _ _ (fun i => rfl)

/-- Claim C6 counterexample: when the generation service returns the JSON
array `["a","a","a"]`, the set submitted is `["#a","#a","#a"]`: every tag
body has a single character (outside the claimed 2-8 range) and the set has
duplicates — the code never validates tag length or uniqueness (they are
only requested in the generation prompt). -/
theorem tags_spec_counterexample :
    submittedTags (fun _ => some [['a'], ['a'], ['a']]) "菜".toList
      = [['#', 'a'], ['#', 'a'], ['#', 'a']]
  ∧ ¬ (submittedTags (fun _ => some [['a'], ['a'], ['a']]) "菜".toList).Nodup
  ∧ ∃ t ∈ submittedTags (fun _ => some [['a'], ['a'], ['a']]) "菜".toList,
      (t.drop 1).length < 2 :=
  ⟨by decide, by decide, ⟨['#', 'a'], by decide, by decide⟩⟩

theorem call_qwen_tags_length (svc : Nat → Option (List (List Char)))
    (dish : List Char) :
    ∀ fuel attempt, (call_qwen_tags svc dish fuel attempt).length ≤ 3 := by
  intro fuel
  induction fuel with
  | zero =>
    intro attempt
    simp [call_qwen_tags, defaultTags]
  | succ fuel ih =>
    intro attempt
    rw [call_qwen_tags]
    rcases hv : svc attempt with _ | l
    · simp only [hv]
      exact ih (attempt + 1)
    · simp only [hv]
      by_cases hc : tagsClean l = []
      · simpa [hc] using ih (attempt + 1)
      · rw [if_neg hc]
        simp only [List.length_take]
        omega

theorem addHash_head (t : List Char) : (addHash t).head? = some '#' := by
  unfold addHash
  by_cases h : t.head? = some '#'
  · rw [if_pos h]; exact h
  · rw [if_neg h]; rfl

/-- Claim C6 amended: the tag set submitted for a record contains at most 3
tags and every submitted tag starts with the '#' marker (the prefix is added
exactly when it is absent); the claimed 2-8 character bound and
duplicate-freedom are requested in the generation prompt but not enforced by
the code. -/
theorem tags_submission_spec (svc : Nat → Option (List (List Char)))
    (dish : List Char) :
    (submittedTags svc dish).length ≤ 3
  ∧ ∀ t ∈ submittedTags svc dish, t.head? = some '#' := by
  constructor
  · simpa [submittedTags] using call_qwen_tags_length svc dish 3 1
  · intro t ht
    obtain ⟨u, _, rfl⟩ := List.mem_map.mp ht
    exact addHash_head u

/-- Claim C6 witness for the amended statement. -/
theorem tags_submission_spec_witness :
    (submittedTags (fun _ => none) "菜".toList).length ≤ 3
  ∧ (['#', 'a'] : List Char).head? = some '#' :=
  ⟨(tags_submission_spec (fun _ => none) "菜".toList).1,
   (tags_submission_spec (fun _ => some [['a'], ['a'], ['a']]) "菜".toList).2
     ['#', 'a'] (by decide)⟩

/-- Claim C2: the ledger is mutated (matching rows marked published with the
timestamp set) and the whole store persisted exactly when `publish_to_mcp`
reports success; an exception/timeout, a missing `success` field and a false
`success` field all report failure, and then the ledger is left completely
unchanged (so an unpublished record stays unpublished). -/
theorem publish_ledger_spec (df : List Row) (key ts : String)
    (resp : PublishResp) :
    (publish_to_mcp PublishResp.exn = false
      ∧ publish_to_mcp (PublishResp.ok none) = false
      ∧ ∀ b, publish_to_mcp (PublishResp.ok (some b)) = b)
  ∧ ((publish_to_mcp resp = true
        ∧ publishStep df key ts resp = (markPublished df key ts, true))
      ∨ (publish_to_mcp resp = false ∧ publishStep df key ts resp = (df, false))) := by
  refine ⟨⟨rfl, rfl, fun b => rfl⟩, ?_⟩
  by_cases h : publish_to_mcp resp = true
  · exact Or.inl ⟨h, by simp [publishStep, h]⟩
  · have hf : publish_to_mcp resp = false := by
      cases hc : publish_to_mcp resp
      · rfl
      · exact absurd hc h
    exact Or.inr ⟨hf, by simp [publishStep, hf]⟩

/-- Claim C7: with exactly one row matching the key, `markPublished` flips
precisely that row's status from Unpublished to Published and writes the
(necessarily non-empty) formatted timestamp; every other row is identical
before and after the whole-store persist. -/
theorem markPublished_unique_spec (pre post : List Row) (r : Row) (key : String)
    (y mo d h mi s : Nat)
    (hr : r.title = key) (hunpub : r.published = "未发布")
    (hpre : ∀ x ∈ pre, x.title ≠ key) (hpost : ∀ x ∈ post, x.title ≠ key) :
    markPublished (pre ++ r :: post) key (formatTs y mo d h mi s)
      = pre ++ { r with published := "已发布",
                        pubTime := formatTs y mo d h mi s } :: post
  ∧ formatTs y mo d h mi s ≠ "" := by
  constructor
  · unfold markPublished
    rw [List.map_append, List.map_cons]
    have hmap : ∀ l : List Row, (∀ x ∈ l, x.title ≠ key) →
        l.map (updRow key (formatTs y mo d h mi s)) = l := by
      intro l hl
      induction l with
      | nil => rfl
      | cons a l ih =>
        rw [List.map_cons]
        rw [ih (fun x hx => hl x (List.mem_cons_of_mem a hx))]
        rw [updRow, if_neg (hl a (List.mem_cons_self a l))]
    rw [hmap pre hpre, hmap post hpost, updRow, if_pos hr]
  · intro hemp
    have hlen := congrArg String.length hemp
    simp only [formatTs, String.length_append] at hlen
    rw [show ("" : String).length = 0 from rfl,
      show ("-" : String).length = 1 from rfl,
      show (" " : String).length = 1 from rfl,
      show (":" : String).length = 1 from rfl] at hlen
    omega

/-- Claim C7 witness: a three-row ledger with one matching row. -/
theorem markPublished_unique_spec_witness :
    markPublished
        [⟨"宫保鸡丁", "", "", "", "未发布", ""⟩,
         ⟨"红烧肉", "香", "肉", "炖", "未发布", ""⟩,
         ⟨"鱼香肉丝", "", "", "", "已发布", "2025-01-01 00:00:00"⟩]
        "红烧肉" (formatTs 2026 10 12 9 30 5)
      = [⟨"宫保鸡丁", "", "", "", "未发布", ""⟩]
        ++ ⟨"红烧肉", "香", "肉", "炖", "已发布", formatTs 2026 10 12 9 30 5⟩
          :: [⟨"鱼香肉丝", "", "", "", "已发布", "2025-01-01 00:00:00"⟩]
  ∧ formatTs 2026 10 12 9 30 5 ≠ "" := by
  have h := markPublished_unique_spec
    [⟨"宫保鸡丁", "", "", "", "未发布", ""⟩]
    [⟨"鱼香肉丝", "", "", "", "已发布", "2025-01-01 00:00:00"⟩]
    ⟨"红烧肉", "香", "肉", "炖", "未发布", ""⟩
    "红烧肉" 2026 10 12 9 30 5 rfl rfl
    (by intro x hx; simp at hx; subst hx; decide)
    (by intro x hx; simp at hx; subst hx; decide)
  exact h

/-- Claim C10: if several rows share the published record's identifier, the
update writes the Published status and the timestamp on every matching row
(and leaves every non-matching row unchanged) — the multi-match behavior is
"update all matches". -/
theorem markPublished_multi_spec (df : List Row) (key ts : String) (i : Nat)
    (r : Row) (hget : df[i]? = some r) :
    (markPublished df key ts)[i]? = some (updRow key ts r)
  ∧ (r.title = key →
      updRow key ts r = { r with published := "已发布", pubTime := ts })
  ∧ (r.title ≠ key → updRow key ts r = r) := by
  refine ⟨?_, fun h => by rw [updRow, if_pos h], fun h => by rw [updRow, if_neg h]⟩
  simp [markPublished, List.getElem?_map, hget]

/-- Claim C10 witness: a two-row ledger whose rows share the identifier; both
rows are updated. -/
theorem markPublished_multi_spec_witness :
    (markPublished
        [⟨"红烧肉", "a", "b", "c", "未发布", ""⟩,
         ⟨"红烧肉", "d", "e", "f", "未发布", ""⟩] "红烧肉" "2026-10-12 09:30:05")[0]?
      = some ⟨"红烧肉", "a", "b", "c", "已发布", "2026-10-12 09:30:05"⟩
  ∧ (markPublished
        [⟨"红烧肉", "a", "b", "c", "未发布", ""⟩,
         ⟨"红烧肉", "d", "e", "f", "未发布", ""⟩] "红烧肉" "2026-10-12 09:30:05")[1]?
      = some ⟨"红烧肉", "d", "e", "f", "已发布", "2026-10-12 09:30:05"⟩ := by
  constructor
  · exact ((markPublished_multi_spec
      [⟨"红烧肉", "a", "b", "c", "未发布", ""⟩,
       ⟨"红烧肉", "d", "e", "f", "未发布", ""⟩]
      "红烧肉" "2026-10-12 09:30:05" 0 ⟨"红烧肉", "a", "b", "c", "未发布", ""⟩
      rfl).1).trans (by decide)
  · exact ((markPublished_multi_spec
      [⟨"红烧肉", "a", "b", "c", "未发布", ""⟩,
       ⟨"红烧肉", "d", "e", "f", "未发布", ""⟩]
      "红烧肉" "2026-10-12 09:30:05" 1 ⟨"红烧肉", "d", "e", "f", "未发布", ""⟩
      rfl).1).trans (by decide)

/-- Claim C9: the quota is clamped to the number of unpublished records when
it exceeds it, and the processed batch is a prefix of a permutation of the
records — exactly `min q N` records, no duplicates, each drawn from the
record list; with an over-large quota the batch is the whole permuted list. -/
theorem selectBatch_spec {α : Type} (records perm : List α) (q : Nat)
    (hperm : perm.Perm records) (hnd : records.Nodup) :
    (selectBatch perm q).length = min q records.length
  ∧ (selectBatch perm q).Nodup
  ∧ (∀ r ∈ selectBatch perm q, r ∈ records)
  ∧ (records.length ≤ q → (selectBatch perm q).Perm records) := by
  have hlen : perm.length = records.length := hperm.length_eq
  have hpnd : perm.Nodup := (hperm.nodup_iff).mpr hnd
  refine ⟨?_, ?_, ?_, ?_⟩
  · rw [selectBatch, List.length_take, clampQuota]
    split
    · omega
    · omega
  · exact (List.take_sublist _ _).nodup hpnd
  · intro r hr
    exact hperm.mem_iff.mp ((List.take_sublist _ _).subset hr)
  · intro hq
    have hall : clampQuota q perm.length = perm.length ∨ perm.length ≤ clampQuota q perm.length := by
      rw [clampQuota]
      split
      · exact Or.inl rfl
      · omega
    have htake : selectBatch perm q = perm := by
      rw [selectBatch]
      rcases hall with h | h
      · rw [h, List.take_length]
      · exact List.take_of_length_le h
    rw [htake]
    exact hperm

/-- Claim C9 witness: three records, quota 5: the whole permutation is
processed, without duplicates. -/
theorem selectBatch_spec_witness :
    (selectBatch ([2, 3, 1] : List Nat) 5).Nodup
  ∧ (selectBatch ([2, 3, 1] : List Nat) 5).Perm [1, 2, 3] :=
  ⟨(selectBatch_spec [1, 2, 3] [2, 3, 1] 5 (by decide) (by decide)).2.1,
   (selectBatch_spec [1, 2, 3] [2, 3, 1] 5 (by decide) (by decide)).2.2.2
     (by decide)⟩
